import Mathlib

/-!
Shallow embedding of the HangAI core (hangai.py): cache keying and the
result cache, the Overpass place fetcher with retry, geocoding retry with
backoff, mood detection, history capping, the aggregator that merges
per-mood place lists, and the favorites/usage-counter updates of `main`.

External effects (HTTP, geopy geodesic distance, TextBlob sentiment,
Python `eval`) are modelled as explicit oracle parameters; machine floats
are modelled as rationals.
-/

/-- Association-list lookup with decidable equality, modelling Python
`dict` lookup (`k in d` / `d.get(k)` / `d[k]`). -/
def dlookup {κ : Type} {β : Type} [DecidableEq κ] (k : κ) : List (κ × β) → Option β
  | [] => none
  | (k1, v) :: rest => if k = k1 then some v else dlookup k rest

/-- Association-list assignment modelling Python `d[k] = v`: an existing
key keeps its position and gets the new value, a fresh key is appended. -/
def dset {κ : Type} {β : Type} [DecidableEq κ] (k : κ) (v : β) : List (κ × β) → List (κ × β)
  | [] => [(k, v)]
  | (k1, v1) :: rest => if k = k1 then (k, v) :: rest else (k1, v1) :: dset k v rest

/-- A place record as built by `fetch_overpass`:
`{"name": ..., "lat": ..., "lon": ..., "distance": ..., "tags": ...}`. -/
structure Place where
  name : String
  lat : ℚ
  lon : ℚ
  distance : ℚ
  tags : List (String × String)
deriving DecidableEq

/-- The cache key type: `(round(lat,4), round(lon,4), mood, radius_m)`. -/
abbrev CacheKey := ℚ × ℚ × String × ℤ

/-- The in-memory cache `CACHE`, a dict from keys to place lists. -/
abbrev Cache := List (CacheKey × List Place)

/-- Round a rational to the nearest integer, ties to even — the rounding
mode of Python `round` (banker rounding), on exact decimal inputs. -/
def roundHalfEven (q : ℚ) : ℤ :=
  let f : ℤ := ⌊q⌋
  if q - f < 1/2 then f
  else if q - f > 1/2 then f + 1
  else if 2 ∣ f then f else f + 1

/-- Python `round(x, 4)` on exact decimal inputs. -/
def round4 (q : ℚ) : ℚ := (roundHalfEven (q * 10000) : ℚ) / 10000

/-- The cache key computed at the top of `fetch_overpass`:
`(round(lat, 4), round(lon, 4), mood, radius_m)`. -/
def cacheKey (coords : ℚ × ℚ) (mood : String) (radius_m : ℤ) : CacheKey :=
  (round4 coords.1, round4 coords.2, mood, radius_m)

/-- Great-circle distance in meters between two points of equal longitude:
the meridian arc, at 111195 m per degree of latitude
(2 * pi * 6371000 m / 360 = 111194.93 m, rounded up). -/
def meridianArcM (lat1 lat2 : ℚ) : ℚ := |lat1 - lat2| * 111195

-- Helper: establish a concrete floor value.
theorem floor_eq_of {q : ℚ} {z : ℤ} (h1 : (z : ℚ) ≤ q) (h2 : q < z + 1) : ⌊q⌋ = z := by
  rw [Int.floor_eq_iff]
  exact ⟨h1, h2⟩

theorem round4_eval_4e5 : round4 (4/100000) = 0 := by
  have hm : (4/100000 : ℚ) * 10000 = 2/5 := by norm_num
  have hf : ⌊(2/5 : ℚ)⌋ = 0 := floor_eq_of (by norm_num) (by norm_num)
  rw [round4, roundHalfEven, hm, hf]
  norm_num

theorem round4_eval_6e5 : round4 (6/100000) = 1/10000 := by
  have hm : (6/100000 : ℚ) * 10000 = 3/5 := by norm_num
  have hf : ⌊(3/5 : ℚ)⌋ = 0 := floor_eq_of (by norm_num) (by norm_num)
  rw [round4, roundHalfEven, hm, hf]
  norm_num

theorem round4_eval_1e5 : round4 (1/100000) = 0 := by
  have hm : (1/100000 : ℚ) * 10000 = 1/10 := by norm_num
  have hf : ⌊(1/10 : ℚ)⌋ = 0 := floor_eq_of (by norm_num) (by norm_num)
  rw [round4, roundHalfEven, hm, hf]
  norm_num

theorem round4_eval_2e5 : round4 (2/100000) = 0 := by
  have hm : (2/100000 : ℚ) * 10000 = 1/5 := by norm_num
  have hf : ⌊(1/5 : ℚ)⌋ = 0 := floor_eq_of (by norm_num) (by norm_num)
  rw [round4, roundHalfEven, hm, hf]
  norm_num

theorem round4_eval_0 : round4 0 = 0 := by
  have hm : (0 : ℚ) * 10000 = 0 := by norm_num
  have hf : ⌊(0 : ℚ)⌋ = 0 := floor_eq_of (by norm_num) (by norm_num)
  rw [round4, roundHalfEven, hm, hf]
  norm_num

/-- An Overpass response element: optional direct coordinates, optional
centroid coordinates (`el.get("center", {})`, both fields absent when the
center dict is missing), and the tag dict (`el.get("tags", {})`). -/
structure Element where
  lat : Option ℚ
  lon : Option ℚ
  centerLat : Option ℚ
  centerLon : Option ℚ
  tags : List (String × String)
deriving DecidableEq

/-- Python `a or b` on two optional floats: `None` and `0.0` are falsy,
so the right operand is taken exactly when the left is absent or zero. -/
def pyOr (a b : Option ℚ) : Option ℚ :=
  match a with
  | some x => if x = 0 then b else some x
  | none => b

/-- Python truthiness of an optional float (`if lat_p and lon_p`):
truthy iff present and nonzero. -/
def isTruthy (a : Option ℚ) : Bool :=
  match a with
  | some x => decide (x ≠ 0)
  | none => false

/-- The per-element body of the loop in `fetch_overpass` (lines 160-167):
name defaults to "Unnamed", coordinates prefer the element's own lat/lon
with Python `or` fallback to the centroid, and the element is kept only
when `lat_p and lon_p` is truthy; distance comes from the geodesic oracle
`distF`. Returns `none` when the element is skipped. -/
def processElement (distF : ℚ × ℚ → ℚ × ℚ → ℚ) (coords : ℚ × ℚ) (el : Element) : Option Place :=
  let name := (dlookup "name" el.tags).getD "Unnamed"
  let latP := pyOr el.lat el.centerLat
  let lonP := pyOr el.lon el.centerLon
  if isTruthy latP && isTruthy lonP then
    match latP, lonP with
    | some a, some b => some ⟨name, a, b, distF coords (a, b), el.tags⟩
    | _, _ => none
  else none

/-- Stable insertion of a place into a distance-sorted list: the new place
goes after every already-present place of strictly smaller distance and
before the first place of greater-or-equal distance. -/
def insertByDist (p : Place) : List Place → List Place
  | [] => [p]
  | q :: rest => if q.distance < p.distance then q :: insertByDist p rest else p :: q :: rest

/-- Stable ascending sort by distance, modelling
`places.sort(key=lambda x: x["distance"])`. -/
def sortByDist : List Place → List Place
  | [] => []
  | p :: rest => insertByDist p (sortByDist rest)

/-- The retry loop of `fetch_overpass` (lines 144-155): up to 3 attempts
against the provider oracle; the first successful response is kept,
`none` after exhausting the attempts.  `oracle i` is the outcome of
attempt `i` (`none` = a `requests.RequestException` was raised and
caught). -/
def firstSuccess (oracle : ℕ → Option (List Element)) : ℕ → ℕ → Option (List Element)
  | _, 0 => none
  | attempt, remaining + 1 =>
    match oracle attempt with
    | some d => some d
    | none => firstSuccess oracle (attempt + 1) remaining

/-- `fetch_overpass(coords, mood, radius_m)`: consult the cache under
`cacheKey`; on a hit return the cached list unchanged; on a miss run up
to 3 provider attempts, and if all fail return `[]` without touching the
cache; otherwise extract places from the elements, sort by distance,
write the sorted list into the cache and return it.  Returns the place
list together with the resulting cache.  The Overpass query text built
from `MOOD_TAGS_EXTENDED[mood]` only determines the provider request, so
it is absorbed into the provider oracle; the embedding covers the moods
of the catalog, which every caller passes. -/
def fetch_overpass (CACHE : Cache) (distF : ℚ × ℚ → ℚ × ℚ → ℚ)
    (coords : ℚ × ℚ) (mood : String) (radius_m : ℤ)
    (oracle : ℕ → Option (List Element)) : List Place × Cache :=
  let key := cacheKey coords mood radius_m
  match dlookup key CACHE with
  | some cached => (cached, CACHE)
  | none =>
    match firstSuccess oracle 1 3 with
    | none => ([], CACHE)
    | some elements =>
      let places := sortByDist (elements.filterMap (processElement distF coords))
      (places, dset key places CACHE)

/-- The persisted cache file, as seen by `load_cache`: missing
(`FileNotFoundError`), unparseable (`json.JSONDecodeError`), or a parsed
JSON object whose keys are the strings to be fed to `eval`. -/
inductive CacheFile where
  | missing : CacheFile
  | badJson : CacheFile
  | json : List (String × List Place) → CacheFile

/-- Rebuild the cache dict from parsed JSON entries,
`{eval(k): v for k, v in tmp.items()}`: `evalO` is the Python `eval`
oracle, `none` meaning `eval` raises (e.g. a `NameError`); such an
exception is not caught by `load_cache`, modelled by the `none` result. -/
def evalEntries (evalO : String → Option CacheKey) : List (String × List Place) → Option Cache
  | [] => some []
  | (k, v) :: rest =>
    match evalO k with
    | none => none
    | some key =>
      match evalEntries evalO rest with
      | none => none
      | some c => some (dset key v c)

/-- `load_cache()`: on a missing file or a JSON parse failure the
exception is caught and the cache is set to `{}`; any other exception
(in particular one raised by `eval` on a key) escapes, modelled as
`none`. -/
def load_cache (evalO : String → Option CacheKey) : CacheFile → Option Cache
  | .missing => some []
  | .badJson => some []
  | .json entries => evalEntries evalO entries

/-- One geocoding attempt outcome: a location, an empty result, or a
provider exception (caught by the `except Exception` arm). -/
inductive GeoOutcome where
  | found : ℚ → ℚ → GeoOutcome
  | notFound : GeoOutcome
  | error : GeoOutcome

/-- Whether an attempt outcome returns a location. -/
def GeoOutcome.isFound : GeoOutcome → Bool
  | .found _ _ => true
  | _ => false

/-- The retry loop of `retry_geocode`: on a found location return its
coordinates at once (no sleep); otherwise — empty result or caught
exception — sleep the current delay, double it, and retry.  Returns the
result together with the list of performed sleeps. -/
def retryGo (oracle : ℕ → GeoOutcome) (attempt : ℕ) (remaining : ℕ) (delay : ℚ) :
    Option (ℚ × ℚ) × List ℚ :=
  match remaining with
  | 0 => (none, [])
  | r + 1 =>
    match oracle attempt with
    | .found la lo => (some (la, lo), [])
    | _ =>
      let rec1 := retryGo oracle (attempt + 1) r (delay * 2)
      (rec1.1, delay :: rec1.2)

/-- The doubling backoff schedule: `remaining` sleeps starting at
`delay`, each twice the previous. -/
def geomDelays (delay : ℚ) : ℕ → List ℚ
  | 0 => []
  | r + 1 => delay :: geomDelays (delay * 2) r

/-- `retry_geocode(address)` with its defaults `retries=5`,
`initial_delay=2.0`: attempts are numbered 1..5 and `oracle i` is the
outcome of attempt `i`. -/
def retry_geocode (oracle : ℕ → GeoOutcome) : Option (ℚ × ℚ) × List ℚ :=
  retryGo oracle 1 5 2

/-- `MOOD_TAGS_EXTENDED`, in its source order. -/
def MOOD_TAGS_EXTENDED : List (String × List (String × String)) :=
  [("happy", [("amenity", "cafe"), ("amenity", "restaurant"), ("bar", "yes"), ("shop", "bakery")]),
   ("sad", [("leisure", "park"), ("amenity", "library"), ("place_of_worship", "church")]),
   ("adventurous", [("leisure", "amusement_park"), ("sport", "climbing"), ("leisure", "sports_centre")])]

/-- The mood names, in dict iteration order (`for mood in MOOD_TAGS_EXTENDED`). -/
def MOODS : List String := MOOD_TAGS_EXTENDED.map (fun e => e.1)

/-- Python `user_input.lower()`: character-wise lowercasing. -/
def pyLower (s : String) : String := String.mk (s.data.map Char.toLower)

/-- Python `mood in lowered`: substring containment. -/
def strContains (hay needle : String) : Bool :=
  decide (needle.data <:+: hay.data)

/-- `detect_moods_from_text(user_input)`.  The TextBlob sentiment score is
an oracle parameter `polarity` (only inspected on the fallback path).
Python returns `list(set(moods))`, the same elements in unspecified
order; modelled by the filtered list itself (mood names are distinct, so
the set conversion only permutes). -/
def detect_moods_from_text (user_input : String) (polarity : ℚ) : List String :=
  let lowered := pyLower user_input
  let moods := MOODS.filter (fun mood => strContains lowered mood)
  if moods.isEmpty then
    if polarity > 4/10 then ["happy"]
    else if polarity < -(2/10) then ["sad"]
    else ["adventurous"]
  else moods

/-- `MoodInPlace(place_tags, mood)`: some tag pair of the mood appears
verbatim in the place's tag dict. -/
def MoodInPlace (place_tags : List (String × String)) (mood : String) : Bool :=
  ((dlookup mood MOOD_TAGS_EXTENDED).getD []).any
    (fun kv => decide (dlookup kv.1 place_tags = some kv.2))

/-- `MAX_HISTORY_SIZE`. -/
def MAX_HISTORY_SIZE : ℕ := 50

/-- `save_history(profile, entry)` restricted to its effect on
`profile["history"]`: append, then truncate to the most recent
`MAX_HISTORY_SIZE` entries (`history[-MAX_HISTORY_SIZE:]`) when the
length exceeds the cap.  Entry contents are irrelevant to the logic, so
the entry type is a parameter. -/
def save_history {α : Type} (history : List α) (entry : α) : List α :=
  let h := history ++ [entry]
  if MAX_HISTORY_SIZE < h.length then h.drop (h.length - MAX_HISTORY_SIZE) else h

/-- The dict-update step of the aggregation loop in `main` (lines
315-317): a place under a fresh name is appended; a place strictly closer
than the entry stored under its name replaces that entry in place;
otherwise the dict is unchanged. -/
def updateUnique (acc : List Place) (p : Place) : List Place :=
  match acc.find? (fun q => q.name == p.name) with
  | none => acc ++ [p]
  | some q =>
    if p.distance < q.distance then
      acc.map (fun r => if r.name == p.name then p else r)
    else acc

/-- `unique_places` after the aggregation loop: fold of `updateUnique`
over `all_places`, starting from the empty dict. -/
def dedupByName (all_places : List Place) : List Place :=
  all_places.foldl updateUnique []

/-- `combined_places = sorted(unique_places.values(), key=...)`. -/
def combine (all_places : List Place) : List Place :=
  sortByDist (dedupByName all_places)

/-- A favorite record `{"name": ..., "tags": ...}` as appended in `main`. -/
structure Fav where
  name : String
  tags : List (String × String)
deriving DecidableEq

/-- The guarded insertion of `main` (lines 334-335), as named by the
spec: append `{"name": ..., "tags": ...}` only when no favorite of that
name is already in the mood's list; also report whether it was newly
added. -/
def addFavoriteIfAbsent (fav_list : List Fav) (f : Fav) : List Fav × Bool :=
  if fav_list.any (fun fav => fav.name == f.name) then (fav_list, false)
  else (fav_list ++ [f], true)

/-- `remove_favorite` restricted to one mood's list: drop every favorite
carrying the given name. -/
def remove_favorite (fav_list : List Fav) (place_name : String) : List Fav :=
  fav_list.filter (fun fav => fav.name != place_name)

/-- An operation on one mood's favorite list. -/
inductive FavOp where
  | add : Fav → FavOp
  | remove : String → FavOp

/-- Apply one favorites operation. -/
def applyFavOp (fav_list : List Fav) : FavOp → List Fav
  | .add f => (addFavoriteIfAbsent fav_list f).1
  | .remove n => remove_favorite fav_list n

/-- A usage-counter dict (`mood_usage` / `place_usage`). -/
abbrev Counters := List (String × ℕ)

/-- One counter increment, `d[k] = d.get(k, 0) + 1`. -/
def bumpCounter (d : Counters) (k : String) : Counters :=
  dset k ((dlookup k d).getD 0 + 1) d

/-- `update_usage_counters(profile, mood, place_name)`: bump the mood
counter and the place counter together. -/
def update_usage_counters (mood_usage place_usage : Counters) (mood place_name : String) :
    Counters × Counters :=
  (bumpCounter mood_usage mood, bumpCounter place_usage place_name)

/-- The per-mood favorites loop of `main` (lines 332-337): walk the
combined list; at the first place matching the mood that is not already a
favorite, append it, bump both usage counters, and stop (`break`); places
matching the mood but already present are passed over without stopping. -/
def favLoop (mood : String) (combined : List Place) (fav_list : List Fav)
    (mood_usage place_usage : Counters) : List Fav × Counters × Counters :=
  match combined with
  | [] => (fav_list, mood_usage, place_usage)
  | place :: rest =>
    if MoodInPlace place.tags mood then
      if fav_list.any (fun fav => fav.name == place.name) then
        favLoop mood rest fav_list mood_usage place_usage
      else
        let upd := update_usage_counters mood_usage place_usage mood place.name
        (fav_list ++ [⟨place.name, place.tags⟩], upd.1, upd.2)
    else favLoop mood rest fav_list mood_usage place_usage

/-- A coordinate usable per the spec sentence for C8: a direct lat/lon,
or else a centroid lat/lon for area features.  Stated from the spec
words, to be compared with the code's truthiness test. -/
def specUsableCoord (el : Element) : Bool :=
  (el.lat.orElse (fun _ => el.centerLat)).isSome &&
  (el.lon.orElse (fun _ => el.centerLon)).isSome

/-- C1: for every cache state, coordinates, mood and radius whose cache
key is absent, when all 3 provider attempts of `fetch_overpass` fail the
call returns the empty list (the embedding is a total function, so no
exception escapes) and the cache is unchanged, hence a subsequent call
with the same key behaves exactly like a call against the original
cache — it queries the provider again. -/
theorem c1_fetch_all_attempts_fail (CACHE : Cache) (distF : ℚ × ℚ → ℚ × ℚ → ℚ)
    (coords : ℚ × ℚ) (mood : String) (radius_m : ℤ) (oracle : ℕ → Option (List Element))
    (hmiss : dlookup (cacheKey coords mood radius_m) CACHE = none)
    (hfail : ∀ i, 1 ≤ i → i ≤ 3 → oracle i = none) :
    fetch_overpass CACHE distF coords mood radius_m oracle = ([], CACHE) ∧
    ∀ oracle2, fetch_overpass (fetch_overpass CACHE distF coords mood radius_m oracle).2
        distF coords mood radius_m oracle2 =
      fetch_overpass CACHE distF coords mood radius_m oracle2 := by
  have h1 := hfail 1 (le_refl 1) (by norm_num)
  have h2 := hfail 2 (by norm_num) (by norm_num)
  have h3 := hfail 3 (by norm_num) (le_refl 3)
  have hfs : firstSuccess oracle 1 3 = none := by
    simp [firstSuccess, h1, h2, h3]
  have hmain : fetch_overpass CACHE distF coords mood radius_m oracle = ([], CACHE) := by
    simp [fetch_overpass, hmiss, hfs]
  exact ⟨hmain, fun oracle2 => by rw [hmain]⟩

/-- Witness for C1 at a concrete empty cache and an always-failing
provider oracle. -/
theorem c1_fetch_all_attempts_fail_witness :
    dlookup (cacheKey (0, 0) "happy" 2500) ([] : Cache) = none ∧
    fetch_overpass [] (fun _ _ => 0) (0, 0) "happy" 2500 (fun _ => none) = ([], []) :=
  ⟨rfl, (c1_fetch_all_attempts_fail [] (fun _ _ => 0) (0, 0) "happy" 2500 (fun _ => none)
    rfl (fun _ _ _ => rfl)).1⟩

/-- C2 counterexample: the two latitudes 0.00004 and 0.00006 (equal
longitudes) are about 2.22 m apart along the meridian — well under 11
m — yet their 4-decimal roundings differ, so the two searches use
different cache keys.  The claim that any two coordinates within ~11 m
share a cache key is false. -/
theorem c2_counterexample :
    meridianArcM (4/100000) (6/100000) ≤ 11 ∧
    cacheKey (4/100000, 0) "happy" 2500 ≠ cacheKey (6/100000, 0) "happy" 2500 := by
  constructor
  · rw [meridianArcM, show (4/100000 - 6/100000 : ℚ) = -(1/50000) by norm_num, abs_neg,
      abs_of_nonneg (by norm_num)]
    norm_num
  · intro h
    have hfst := congrArg (fun k : CacheKey => k.1) h
    simp only [cacheKey] at hfst
    rw [round4_eval_4e5, round4_eval_6e5] at hfst
    norm_num at hfst

/-- C2 amended: two searches hit the same cache entry exactly when their
coordinates have equal 4-decimal roundings (and the mood and radius
agree) — rounding-cell equality, not metric proximity, is what the key
preserves.  Under that hypothesis the keys agree and the second search
returns the entry cached by the first without touching the cache. -/
theorem c2_same_rounding_same_key (lat1 lon1 lat2 lon2 : ℚ) (mood : String) (radius_m : ℤ)
    (hlat : round4 lat1 = round4 lat2) (hlon : round4 lon1 = round4 lon2) :
    cacheKey (lat1, lon1) mood radius_m = cacheKey (lat2, lon2) mood radius_m ∧
    ∀ (CACHE : Cache) (distF : ℚ × ℚ → ℚ × ℚ → ℚ) (oracle : ℕ → Option (List Element))
      (places : List Place),
      dlookup (cacheKey (lat1, lon1) mood radius_m) CACHE = some places →
      fetch_overpass CACHE distF (lat2, lon2) mood radius_m oracle = (places, CACHE) := by
  have hk : cacheKey (lat1, lon1) mood radius_m = cacheKey (lat2, lon2) mood radius_m := by
    simp [cacheKey, hlat, hlon]
  refine ⟨hk, ?_⟩
  intro CACHE distF oracle places hhit
  have hhit2 : dlookup (cacheKey (lat2, lon2) mood radius_m) CACHE = some places := hk ▸ hhit
  simp [fetch_overpass, hhit2]

/-- Witness for C2 amended: latitudes 0.00001 and 0.00002 both round to
0.0000, and a cache entry stored under the first key is returned by a
search at the second coordinates. -/
theorem c2_same_rounding_same_key_witness :
    cacheKey (1/100000, 0) "happy" 2500 = cacheKey (2/100000, 0) "happy" 2500 ∧
    fetch_overpass [(cacheKey (1/100000, 0) "happy" 2500, [])] (fun _ _ => 0)
        (2/100000, 0) "happy" 2500 (fun _ => none) =
      ([], [(cacheKey (1/100000, 0) "happy" 2500, [])]) := by
  have h := c2_same_rounding_same_key (1/100000) 0 (2/100000) 0 "happy" 2500
    (round4_eval_1e5.trans round4_eval_2e5.symm) rfl
  exact ⟨h.1, h.2 _ _ _ _ (by simp [dlookup])⟩

/-- C3 (code bug): `load_cache` catches only `FileNotFoundError` and
`json.JSONDecodeError`.  On the file content `{"hello": []}` — valid
JSON, corrupt as a cache — `eval("hello")` raises an uncaught
`NameError` (modelled by the eval oracle returning `none`), so loading
raises instead of yielding the empty cache; the missing-file and
invalid-JSON cases do degrade to the empty cache as claimed. -/
theorem c3_load_cache_uncaught_eval (evalO : String → Option CacheKey)
    (heval : evalO "hello" = none) :
    load_cache evalO (.json [("hello", [])]) = none ∧
    load_cache evalO .missing = some [] ∧
    load_cache evalO .badJson = some [] := by
  refine ⟨?_, rfl, rfl⟩
  simp [load_cache, evalEntries, heval]

/-- Witness for C3 at a concrete eval oracle that fails on every key
string. -/
theorem c3_load_cache_uncaught_eval_witness :
    load_cache (fun _ => none) (.json [("hello", [])]) = none ∧
    load_cache (fun _ => none) .missing = some [] ∧
    load_cache (fun _ => none) .badJson = some [] :=
  c3_load_cache_uncaught_eval (fun _ => none) rfl

/-- C8 (code bug): the guard `if lat_p and lon_p` uses Python
truthiness, so an element whose latitude is exactly 0 (here: on the
equator at `lat 0, lon 10`, with no centroid) has a usable coordinate in
the sense of the spec yet is skipped by `fetch_overpass`; the "Unnamed"
default for a missing name tag does behave as claimed. -/
theorem c8_zero_coordinate_skipped :
    specUsableCoord ⟨some 0, some 10, none, none, [("name", "Equator Cafe")]⟩ = true ∧
    (∀ (distF : ℚ × ℚ → ℚ × ℚ → ℚ) (coords : ℚ × ℚ),
      processElement distF coords ⟨some 0, some 10, none, none, [("name", "Equator Cafe")]⟩ =
        none) ∧
    (∀ (distF : ℚ × ℚ → ℚ × ℚ → ℚ) (coords : ℚ × ℚ),
      (processElement distF coords ⟨some 5, some 6, none, none, []⟩).map Place.name =
        some "Unnamed") := by
  refine ⟨rfl, fun distF coords => ?_, fun distF coords => ?_⟩
  · simp [processElement, pyOr, isTruthy]
  · simp [processElement, pyOr, isTruthy, dlookup]

/-- C10: in one search, the per-mood favorites loop of `main` appends at
most one new favorite — the first combined-list place matching the mood
that is not already a favorite — and bumps the two usage counters
together exactly when such a favorite is appended; when every matching
place is already a favorite (or none matches), favorites and both
counters are untouched. -/
theorem c10_favorites_loop_adds_at_most_one (mood : String) (combined : List Place)
    (fav_list : List Fav) (mood_usage place_usage : Counters) :
    favLoop mood combined fav_list mood_usage place_usage =
      match combined.find?
          (fun p => MoodInPlace p.tags mood && !(fav_list.any (fun fav => fav.name == p.name))) with
      | none => (fav_list, mood_usage, place_usage)
      | some p => (fav_list ++ [⟨p.name, p.tags⟩],
          bumpCounter mood_usage mood, bumpCounter place_usage p.name) := by
  induction combined with
  | nil => rfl
  | cons place rest ih =>
    simp only [favLoop, List.find?_cons]
    cases hM : MoodInPlace place.tags mood with
    | false => simpa [hM] using ih
    | true =>
      cases hA : fav_list.any (fun fav => fav.name == place.name) with
      | true => simpa [hM, hA] using ih
      | false => simp [hM, hA, update_usage_counters]

-- Helper: the sleeps performed by the geocode retry loop are always an
-- initial segment of the doubling backoff schedule.
theorem retryGo_sleeps_prefix (oracle : ℕ → GeoOutcome) (r : ℕ) :
    ∀ (a : ℕ) (d : ℚ), (retryGo oracle a r d).2 <+: geomDelays d r := by
  induction r with
  | zero => intro a d; simp [retryGo, geomDelays]
  | succ n ih =>
    intro a d
    simp only [retryGo, geomDelays]
    cases oracle a with
    | found la lo => exact List.nil_prefix
    | notFound => exact (List.cons_prefix_cons).mpr ⟨rfl, ih (a + 1) (d * 2)⟩
    | error => exact (List.cons_prefix_cons).mpr ⟨rfl, ih (a + 1) (d * 2)⟩

-- Helper: when no attempt in the window finds a location, the loop
-- returns no coordinates and performs the full backoff schedule.
theorem retryGo_all_fail (oracle : ℕ → GeoOutcome) (r : ℕ) :
    ∀ (a : ℕ) (d : ℚ), (∀ i, a ≤ i → i < a + r → (oracle i).isFound = false) →
      retryGo oracle a r d = (none, geomDelays d r) := by
  induction r with
  | zero => intro a d _; simp [retryGo, geomDelays]
  | succ n ih =>
    intro a d h
    have ha : (oracle a).isFound = false := h a (le_refl a) (by omega)
    simp only [retryGo, geomDelays]
    cases hc : oracle a with
    | found la lo => rw [hc] at ha; simp [GeoOutcome.isFound] at ha
    | notFound =>
      rw [ih (a + 1) (d * 2) (fun i h1 h2 => h i (by omega) (by omega))]
    | error =>
      rw [ih (a + 1) (d * 2) (fun i h1 h2 => h i (by omega) (by omega))]

/-- C7: `retry_geocode` makes at most 5 attempts — its sleep sequence is
always an initial segment of the fixed schedule [2, 4, 8, 16, 32]
seconds (delay starts at 2, doubles after each failed attempt, no
jitter) — every provider exception is absorbed as a failed attempt
(the embedding is total over arbitrary attempt outcomes), and when all 5
attempts fail the function returns no coordinates, as a value rather
than an exception, after performing exactly that schedule. -/
theorem c7_retry_geocode_backoff (oracle : ℕ → GeoOutcome) :
    (retry_geocode oracle).2 <+: [2, 4, 8, 16, 32] ∧
    ((∀ i, 1 ≤ i → i ≤ 5 → (oracle i).isFound = false) →
      retry_geocode oracle = (none, [2, 4, 8, 16, 32])) := by
  have hg : geomDelays 2 5 = [2, 4, 8, 16, 32] := by norm_num [geomDelays]
  constructor
  · have h := retryGo_sleeps_prefix oracle 5 1 2
    rwa [hg] at h
  · intro h
    rw [retry_geocode, retryGo_all_fail oracle 5 1 2 (fun i h1 h2 => h i h1 (by omega)), hg]

/-- Witness for C7 at the oracle whose every attempt raises. -/
theorem c7_retry_geocode_backoff_witness :
    retry_geocode (fun _ => GeoOutcome.error) = (none, [2, 4, 8, 16, 32]) :=
  (c7_retry_geocode_backoff (fun _ => GeoOutcome.error)).2 (fun _ _ _ => rfl)

/-- C6: mood classification never returns an empty list: when at least
one mood name occurs (case-insensitively) as a substring of the text the
result is exactly the list of occurring moods, and otherwise it is the
single mood picked by the sentiment thresholds (polarity > 0.4 gives
happy, polarity < -0.2 gives sad, anything else adventurous). -/
theorem c6_mood_classification (user_input : String) (polarity : ℚ) :
    detect_moods_from_text user_input polarity ≠ [] ∧
    (MOODS.filter (fun mood => strContains (pyLower user_input) mood) ≠ [] →
      detect_moods_from_text user_input polarity =
        MOODS.filter (fun mood => strContains (pyLower user_input) mood)) ∧
    (MOODS.filter (fun mood => strContains (pyLower user_input) mood) = [] →
      detect_moods_from_text user_input polarity =
        (if polarity > 4/10 then ["happy"]
         else if polarity < -(2/10) then ["sad"] else ["adventurous"])) := by
  cases hm : MOODS.filter (fun mood => strContains (pyLower user_input) mood) with
  | nil =>
    have hd : detect_moods_from_text user_input polarity =
        (if polarity > 4/10 then ["happy"]
         else if polarity < -(2/10) then ["sad"] else ["adventurous"]) := by
      simp [detect_moods_from_text, hm]
    refine ⟨?_, fun h => absurd rfl h, fun _ => hd⟩
    rw [hd]
    split_ifs <;> simp
  | cons m ms =>
    have hd : detect_moods_from_text user_input polarity = m :: ms := by
      simp [detect_moods_from_text, hm]
    refine ⟨by rw [hd]; simp, fun _ => hd, fun h => by cases h⟩

/-- Witness for C6: a text with no mood name and strongly positive
polarity classifies as happy; a text containing the word happy returns
that matched mood. -/
theorem c6_mood_classification_witness :
    detect_moods_from_text "zzz" 1 = ["happy"] ∧
    detect_moods_from_text "so happy" 0 = ["happy"] := by
  have h1 := (c6_mood_classification "zzz" 1).2.2 (by decide)
  have h2 := (c6_mood_classification "so happy" 0).2.1 (by decide)
  have he : MOODS.filter (fun mood => strContains (pyLower "so happy") mood) = ["happy"] := by
    decide
  rw [he] at h2
  rw [if_pos (by norm_num)] at h1
  exact ⟨h1, h2⟩

-- Helper: one append step always equals keep-the-last-50 of the
-- appended list (natural subtraction makes the uncapped case a drop 0).
theorem save_history_eq {α : Type} (history : List α) (entry : α) :
    save_history history entry =
      (history ++ [entry]).drop ((history ++ [entry]).length - MAX_HISTORY_SIZE) := by
  rw [save_history]
  split
  · rfl
  · next hle =>
    rw [Nat.sub_eq_zero_of_le (by omega), List.drop_zero]

-- Helper: capping a capped list appended with more entries equals
-- capping the full concatenation.
theorem dropCap_append {α : Type} (x y : List α) :
    (x.drop (x.length - MAX_HISTORY_SIZE) ++ y).drop
      ((x.drop (x.length - MAX_HISTORY_SIZE) ++ y).length - MAX_HISTORY_SIZE) =
    (x ++ y).drop ((x ++ y).length - MAX_HISTORY_SIZE) := by
  rw [List.drop_append_eq_append_drop, List.drop_append_eq_append_drop, List.drop_drop]
  have hx : (x.drop (x.length - MAX_HISTORY_SIZE)).length =
      x.length - (x.length - MAX_HISTORY_SIZE) := List.length_drop _ _
  congr 2
  · simp only [List.length_append, hx]
    omega
  · simp only [List.length_append, hx]
    omega

-- Helper: folding appends over a history already within the cap yields
-- the last 50 entries of the full concatenation.
theorem foldl_save_history {α : Type} (es : List α) :
    ∀ h0 : List α, h0.length ≤ MAX_HISTORY_SIZE →
      es.foldl save_history h0 = (h0 ++ es).drop ((h0 ++ es).length - MAX_HISTORY_SIZE) := by
  induction es with
  | nil =>
    intro h0 hle
    simp [Nat.sub_eq_zero_of_le hle]
  | cons e rest ih =>
    intro h0 _
    rw [List.foldl_cons, save_history_eq,
      ih _ (by simp only [List.length_drop]; omega), dropCap_append]
    simp

/-- C4: for every starting history and every sequence of appended
entries, when more than 50 entries are appended the resulting history is
exactly the 50 most recently appended entries in append order (length
exactly 50); when at most 50 are appended, all appended entries are
retained, in order, as a suffix of the resulting history. -/
theorem c4_history_cap {α : Type} (h0 : List α) (es : List α) :
    (MAX_HISTORY_SIZE < es.length →
      es.foldl save_history h0 = es.drop (es.length - MAX_HISTORY_SIZE) ∧
      (es.foldl save_history h0).length = MAX_HISTORY_SIZE) ∧
    (es.length ≤ MAX_HISTORY_SIZE → es <:+ es.foldl save_history h0) := by
  cases es with
  | nil =>
    exact ⟨fun h => by simp at h, fun _ => List.nil_suffix⟩
  | cons e rest =>
    have hstep : (e :: rest).foldl save_history h0 =
        (h0 ++ e :: rest).drop ((h0 ++ e :: rest).length - MAX_HISTORY_SIZE) := by
      rw [List.foldl_cons, save_history_eq,
        foldl_save_history rest _ (by simp only [List.length_drop]; omega), dropCap_append]
      simp
    constructor
    · intro hgt
      rw [hstep]
      constructor
      · rw [List.drop_append_eq_append_drop,
          List.drop_eq_nil_of_le (by simp only [List.length_append]; omega), List.nil_append]
        congr 1
        simp only [List.length_append]
        omega
      · simp only [List.length_drop, List.length_append] at *
        omega
    · intro hle
      rw [hstep, List.drop_append_eq_append_drop]
      have h2 : (e :: rest).drop
          ((h0 ++ e :: rest).length - MAX_HISTORY_SIZE - h0.length) = e :: rest := by
        rw [show (h0 ++ e :: rest).length - MAX_HISTORY_SIZE - h0.length = 0 by
          simp only [List.length_append]; omega, List.drop_zero]
      rw [h2]
      exact List.suffix_append _ _

/-- Witness for C4: appending the 51 numbers 0..50 to an empty history
keeps exactly the last 50 of them; appending two entries to a singleton
history keeps both as a suffix. -/
theorem c4_history_cap_witness :
    ((List.range 51).foldl save_history ([] : List ℕ) =
        (List.range 51).drop ((List.range 51).length - MAX_HISTORY_SIZE) ∧
      ((List.range 51).foldl save_history ([] : List ℕ)).length = MAX_HISTORY_SIZE) ∧
    [1, 2] <:+ ([1, 2] : List ℕ).foldl save_history [0] :=
  ⟨(c4_history_cap ([] : List ℕ) (List.range 51)).1 (by simp [MAX_HISTORY_SIZE]),
   (c4_history_cap [0] [1, 2]).2 (by simp [MAX_HISTORY_SIZE])⟩

-- Helper: guarded insertion preserves distinctness of favorite names.
theorem addFavoriteIfAbsent_nodup (l : List Fav) (f : Fav)
    (h : (l.map Fav.name).Nodup) : (((addFavoriteIfAbsent l f).1).map Fav.name).Nodup := by
  rw [addFavoriteIfAbsent]
  split
  · exact h
  · next hany =>
    simp only [List.any_eq_true, beq_iff_eq, not_exists, not_and] at hany
    simp only [List.map_append, List.map_cons, List.map_nil]
    rw [List.nodup_append]
    refine ⟨h, List.nodup_singleton _, ?_⟩
    intro a ha hb
    simp only [List.mem_singleton] at hb
    obtain ⟨x, hx, hxa⟩ := List.mem_map.mp ha
    exact hany x hx (by rw [hxa, hb])

-- Helper: removal preserves distinctness of favorite names.
theorem remove_favorite_nodup (l : List Fav) (n : String)
    (h : (l.map Fav.name).Nodup) : ((remove_favorite l n).map Fav.name).Nodup :=
  (((List.filter_sublist l).map Fav.name).nodup h)

-- Helper: any sequence of add/remove operations preserves distinctness.
theorem foldl_applyFavOp_nodup (ops : List FavOp) :
    ∀ l : List Fav, (l.map Fav.name).Nodup →
      ((ops.foldl applyFavOp l).map Fav.name).Nodup := by
  induction ops with
  | nil => intro l h; exact h
  | cons op rest ih =>
    intro l h
    rw [List.foldl_cons]
    cases op with
    | add f => exact ih _ (addFavoriteIfAbsent_nodup l f h)
    | remove n => exact ih _ (remove_favorite_nodup l n h)

/-- C9: starting from a favorites list with pairwise-distinct names, any
sequence of insert/remove operations preserves distinctness — so each
mood's list holds at most one entry per name; inserting a favorite whose
name is already present returns the list unchanged with `false`, and
when the name is absent the first insertion appends it with `true` while
the immediately repeated insertion is a no-op returning `false`. -/
theorem c9_favorites_at_most_one (l0 : List Fav) (ops : List FavOp) (f : Fav)
    (h0 : (l0.map Fav.name).Nodup) :
    ((ops.foldl applyFavOp l0).map Fav.name).Nodup ∧
    (∀ l : List Fav, l.any (fun fav => fav.name == f.name) = true →
      addFavoriteIfAbsent l f = (l, false)) ∧
    (l0.any (fun fav => fav.name == f.name) = false →
      addFavoriteIfAbsent l0 f = (l0 ++ [f], true) ∧
      addFavoriteIfAbsent (l0 ++ [f]) f = (l0 ++ [f], false)) := by
  refine ⟨foldl_applyFavOp_nodup ops l0 h0, ?_, ?_⟩
  · intro l hl
    rw [addFavoriteIfAbsent, if_pos hl]
  · intro habs
    have h1 : addFavoriteIfAbsent l0 f = (l0 ++ [f], true) := by
      rw [addFavoriteIfAbsent, if_neg (by rw [habs]; simp)]
    have h2 : (l0 ++ [f]).any (fun fav => fav.name == f.name) = true := by
      rw [List.any_append]
      simp
    exact ⟨h1, by rw [addFavoriteIfAbsent, if_pos h2]⟩

/-- Witness for C9: inserting the same favorite twice into an empty list
under one mood leaves exactly one entry, with returns true then false,
and distinct names hold throughout. -/
theorem c9_favorites_at_most_one_witness :
    (([FavOp.add ⟨"Central Perk", []⟩, FavOp.add ⟨"Central Perk", []⟩].foldl applyFavOp
        ([] : List Fav)).map Fav.name).Nodup ∧
    addFavoriteIfAbsent ([] : List Fav) ⟨"Central Perk", []⟩ = ([⟨"Central Perk", []⟩], true) ∧
    addFavoriteIfAbsent [⟨"Central Perk", []⟩] ⟨"Central Perk", []⟩ =
      ([⟨"Central Perk", []⟩], false) := by
  obtain ⟨ha, _, hc⟩ := c9_favorites_at_most_one ([] : List Fav)
    [FavOp.add ⟨"Central Perk", []⟩, FavOp.add ⟨"Central Perk", []⟩] ⟨"Central Perk", []⟩
    (by simp)
  obtain ⟨h1, h2⟩ := hc rfl
  exact ⟨ha, by simpa using h1, by simpa using h2⟩

/-- Invariant of the aggregation fold: the accumulated dict has
pairwise-distinct names, each stored entry is distance-minimal among the
same-named consumed places, every consumed name is represented, and
every stored entry is one of the consumed places. -/
def AggInv (acc consumed : List Place) : Prop :=
  ((acc.map Place.name).Nodup) ∧
  (∀ x ∈ acc, ∀ q ∈ consumed, q.name = x.name → x.distance ≤ q.distance) ∧
  (∀ q ∈ consumed, ∃ x ∈ acc, x.name = q.name) ∧
  (∀ x ∈ acc, x ∈ consumed)

-- Helper: one dict-update step preserves the aggregation invariant.
theorem updateUnique_inv (acc consumed : List Place) (p : Place)
    (h : AggInv acc consumed) : AggInv (updateUnique acc p) (consumed ++ [p]) := by
  obtain ⟨hnd, hmin, hcov, hsub⟩ := h
  cases hfind : acc.find? (fun q => q.name == p.name) with
  | none =>
    have hnone : ∀ x ∈ acc, x.name ≠ p.name := by
      intro x hx
      have := List.find?_eq_none.mp hfind x hx
      simpa using this
    simp only [updateUnique, hfind]
    refine ⟨?_, ?_, ?_, ?_⟩
    · simp only [List.map_append, List.map_cons, List.map_nil]
      rw [List.nodup_append]
      refine ⟨hnd, List.nodup_singleton _, ?_⟩
      intro a ha hb
      simp only [List.mem_singleton] at hb
      obtain ⟨x, hx, hxa⟩ := List.mem_map.mp ha
      exact hnone x hx (by rw [hxa, hb])
    · intro x hx q hq hname
      rcases List.mem_append.mp hx with hx1 | hx1
      · rcases List.mem_append.mp hq with hq1 | hq1
        · exact hmin x hx1 q hq1 hname
        · have hq2 : q = p := List.mem_singleton.mp hq1
          exact absurd (hq2 ▸ hname).symm (hnone x hx1)
      · have hx2 : x = p := List.mem_singleton.mp hx1
        rcases List.mem_append.mp hq with hq1 | hq1
        · obtain ⟨y, hy, hyname⟩ := hcov q hq1
          exact absurd (hyname.trans (hname.trans (by rw [hx2]))) (hnone y hy)
        · have hq2 : q = p := List.mem_singleton.mp hq1
          rw [hx2, hq2]
    · intro q hq
      rcases List.mem_append.mp hq with hq1 | hq1
      · obtain ⟨y, hy, hyname⟩ := hcov q hq1
        exact ⟨y, List.mem_append_left _ hy, hyname⟩
      · have hq2 : q = p := List.mem_singleton.mp hq1
        exact ⟨p, List.mem_append_right _ (by simp), by rw [hq2]⟩
    · intro x hx
      rcases List.mem_append.mp hx with hx1 | hx1
      · exact List.mem_append_left _ (hsub x hx1)
      · have hx2 : x = p := List.mem_singleton.mp hx1
        rw [hx2]
        exact List.mem_append_right _ (by simp)
  | some q0 =>
    have hq0mem : q0 ∈ acc := List.mem_of_find?_eq_some hfind
    have hq0name : q0.name = p.name := by simpa using List.find?_some hfind
    simp only [updateUnique, hfind]
    by_cases hd : p.distance < q0.distance
    · rw [if_pos hd]
      have hgname : ∀ r : Place, (if (r.name == p.name) = true then p else r).name = r.name := by
        intro r
        split
        · next hcond => exact (by simpa using hcond : r.name = p.name).symm
        · rfl
      have hnames : ((acc.map fun r => if r.name == p.name then p else r).map Place.name) =
          acc.map Place.name := by
        rw [List.map_map]
        exact List.map_congr_left fun r _ => hgname r
      refine ⟨by rw [hnames]; exact hnd, ?_, ?_, ?_⟩
      · intro x hx q hq hname
        obtain ⟨r, hr, hgr⟩ := List.mem_map.mp hx
        by_cases hrn : r.name = p.name
        · have hx_eq : x = p := by rw [← hgr]; simp [hrn]
          rcases List.mem_append.mp hq with hq1 | hq1
          · have hqq0 : q.name = q0.name := by rw [hq0name, ← hx_eq]; exact hname
            exact hx_eq ▸ le_trans (le_of_lt hd) (hmin q0 hq0mem q hq1 hqq0)
          · have hq2 : q = p := List.mem_singleton.mp hq1
            rw [hx_eq, hq2]
        · have hx_eq : x = r := by rw [← hgr]; simp [hrn]
          rcases List.mem_append.mp hq with hq1 | hq1
          · exact hx_eq ▸ hmin r hr q hq1 (hname.trans (by rw [hx_eq]))
          · have hq2 : q = p := List.mem_singleton.mp hq1
            have : p.name = r.name := by rw [← hq2, hname, hx_eq]
            exact absurd this.symm hrn
      · intro q hq
        rcases List.mem_append.mp hq with hq1 | hq1
        · obtain ⟨y, hy, hyname⟩ := hcov q hq1
          exact ⟨_, List.mem_map_of_mem _ hy, by rw [hgname y]; exact hyname⟩
        · have hq2 : q = p := List.mem_singleton.mp hq1
          exact ⟨_, List.mem_map_of_mem _ hq0mem, by rw [hgname q0, hq2, hq0name]⟩
      · intro x hx
        obtain ⟨r, hr, hgr⟩ := List.mem_map.mp hx
        by_cases hrn : r.name = p.name
        · have hx_eq : x = p := by rw [← hgr]; simp [hrn]
          rw [hx_eq]
          exact List.mem_append_right _ (by simp)
        · have hx_eq : x = r := by rw [← hgr]; simp [hrn]
          rw [hx_eq]
          exact List.mem_append_left _ (hsub r hr)
    · rw [if_neg hd]
      refine ⟨hnd, ?_, ?_, fun x hx => List.mem_append_left _ (hsub x hx)⟩
      · intro x hx q hq hname
        rcases List.mem_append.mp hq with hq1 | hq1
        · exact hmin x hx q hq1 hname
        · have hq2 : q = p := List.mem_singleton.mp hq1
          have hx_eq : x = q0 :=
            List.inj_on_of_nodup_map hnd hx hq0mem (by rw [hq0name, ← hq2, hname])
          rw [hx_eq, hq2]
          exact not_lt.mp hd
      · intro q hq
        rcases List.mem_append.mp hq with hq1 | hq1
        · exact hcov q hq1
        · have hq2 : q = p := List.mem_singleton.mp hq1
          exact ⟨q0, hq0mem, by rw [hq0name, hq2]⟩

-- Helper: the whole fold preserves the aggregation invariant.
theorem foldl_updateUnique_inv (l : List Place) :
    ∀ acc consumed : List Place, AggInv acc consumed →
      AggInv (l.foldl updateUnique acc) (consumed ++ l) := by
  induction l with
  | nil => intro acc consumed h; simpa using h
  | cons p rest ih =>
    intro acc consumed h
    have h1 := updateUnique_inv acc consumed p h
    have h2 := ih (updateUnique acc p) (consumed ++ [p]) h1
    rw [List.foldl_cons]
    simpa using h2

-- Helper: the deduplicated dict satisfies the invariant over the input.
theorem dedupByName_inv (l : List Place) : AggInv (dedupByName l) l := by
  have h := foldl_updateUnique_inv l [] []
    ⟨by simp, by simp, by simp, by simp⟩
  simpa [dedupByName] using h

-- Helper: stable insertion is a permutation of consing.
theorem insertByDist_perm (p : Place) (l : List Place) : List.Perm (insertByDist p l) (p :: l) := by
  induction l with
  | nil => exact List.Perm.refl _
  | cons q rest ih =>
    rw [insertByDist]
    split
    · exact (ih.cons q).trans (List.Perm.swap p q rest)
    · exact List.Perm.refl _

-- Helper: the sort is a permutation of its input.
theorem sortByDist_perm (l : List Place) : List.Perm (sortByDist l) l := by
  induction l with
  | nil => exact List.Perm.refl _
  | cons p rest ih =>
    rw [sortByDist]
    exact (insertByDist_perm p (sortByDist rest)).trans (ih.cons p)

-- Helper: stable insertion preserves ascending distance order.
theorem insertByDist_sorted (p : Place) (l : List Place)
    (h : l.Pairwise (fun a b => a.distance ≤ b.distance)) :
    (insertByDist p l).Pairwise (fun a b => a.distance ≤ b.distance) := by
  induction l with
  | nil => simp [insertByDist]
  | cons q rest ih =>
    rw [List.pairwise_cons] at h
    obtain ⟨hq, hrest⟩ := h
    rw [insertByDist]
    split
    · next hlt =>
      rw [List.pairwise_cons]
      refine ⟨?_, ih hrest⟩
      intro x hx
      rcases List.mem_cons.mp ((insertByDist_perm p rest).mem_iff.mp hx) with rfl | hx
      · exact le_of_lt hlt
      · exact hq x hx
    · next hge =>
      rw [List.pairwise_cons]
      refine ⟨?_, List.pairwise_cons.mpr ⟨hq, hrest⟩⟩
      intro x hx
      rcases List.mem_cons.mp hx with rfl | hx
      · exact not_lt.mp hge
      · exact le_trans (not_lt.mp hge) (hq x hx)

-- Helper: the sort output is ascending in distance.
theorem sortByDist_sorted (l : List Place) :
    (sortByDist l).Pairwise (fun a b => a.distance ≤ b.distance) := by
  induction l with
  | nil => simp [sortByDist]
  | cons p rest ih => exact insertByDist_sorted p (sortByDist rest) ih

/-- C5: for every collection of per-mood place lists, the combined list
has pairwise-distinct names, every entry is one of the input places and
is distance-minimal among all same-named input places, and the list is
sorted ascending by distance; in particular two per-mood lists each
holding a place named Central Perk at distances 1.0 and 0.4 combine to
the single 0.4 entry. -/
theorem c5_aggregator_dedup_sorted (lists : List (List Place)) :
    (((combine lists.flatten).map Place.name).Nodup ∧
      (combine lists.flatten).Pairwise (fun a b => a.distance ≤ b.distance)) ∧
    (∀ x ∈ combine lists.flatten, x ∈ lists.flatten ∧
      ∀ q ∈ lists.flatten, q.name = x.name → x.distance ≤ q.distance) ∧
    combine ([[⟨"Central Perk", 0, 0, 1, [("amenity", "cafe")]⟩],
        [⟨"Central Perk", 0, 0, 2/5, [("leisure", "park")]⟩]] : List (List Place)).flatten =
      [⟨"Central Perk", 0, 0, 2/5, [("leisure", "park")]⟩] := by
  obtain ⟨hnd, hmin, _, hsub⟩ := dedupByName_inv lists.flatten
  have hperm : List.Perm (combine lists.flatten) (dedupByName lists.flatten) := sortByDist_perm _
  refine ⟨⟨?_, sortByDist_sorted _⟩, ?_, ?_⟩
  · exact ((hperm.map Place.name).nodup_iff).mpr hnd
  · intro x hx
    have hx2 : x ∈ dedupByName lists.flatten := hperm.mem_iff.mp hx
    exact ⟨hsub x hx2, fun q hq hname => hmin x hx2 q hq hname⟩
  · norm_num [combine, dedupByName, updateUnique, sortByDist, insertByDist, List.find?]

/-- Witness for C5 at the Central Perk scenario: the combined list is the
single 0.4-distance entry, and the minimality conjunct instantiated at
the retained entry against the 1.0-distance input entry. -/
theorem c5_aggregator_dedup_sorted_witness :
    combine ([[⟨"Central Perk", 0, 0, 1, [("amenity", "cafe")]⟩],
        [⟨"Central Perk", 0, 0, 2/5, [("leisure", "park")]⟩]] : List (List Place)).flatten =
      [⟨"Central Perk", 0, 0, 2/5, [("leisure", "park")]⟩] ∧
    Place.distance ⟨"Central Perk", 0, 0, 2/5, [("leisure", "park")]⟩ ≤
      Place.distance ⟨"Central Perk", 0, 0, 1, [("amenity", "cafe")]⟩ := by
  have h := c5_aggregator_dedup_sorted ([[⟨"Central Perk", 0, 0, 1, [("amenity", "cafe")]⟩],
    [⟨"Central Perk", 0, 0, 2/5, [("leisure", "park")]⟩]] : List (List Place))
  refine ⟨h.2.2, ?_⟩
  refine (h.2.1 ⟨"Central Perk", 0, 0, 2/5, [("leisure", "park")]⟩ ?_).2
    ⟨"Central Perk", 0, 0, 1, [("amenity", "cafe")]⟩ (by simp) rfl
  rw [h.2.2]
  simp
